import Mathlib

/-!
Verification of the cmd2 statement parser (`src/cmd2/parsing.py`).

The Python source is shallowly embedded: each function of the source is
translated into an executable Lean function over `String`/`List Char`.
Recursions whose argument does not shrink structurally are written with an
explicit fuel argument equal to the input length (each step consumes at
least one character, so the fuel never runs out on the wrapper's call);
this keeps every definition evaluable by `rfl`/`decide`.

The repository file imports `constants`, `utils`, `os.path`, `shlex` and
`re` whose sources are not part of the reviewed tree; those small leaves
(quote/redirection character constants, `strip_quotes`, `expanduser`,
`shlex.quote`, the non-posix `shlex` lexer with `whitespace_split`, and the
two regular expressions built in `StatementParser.__init__`) are modelled
from the spec and from the documented stdlib semantics, as marked on each
definition.
-/

namespace Cmd2

/-- Modelled from the spec: the quote characters (`constants.QUOTES`,
whose source file is not in the reviewed tree). -/
def QUOTES : List Char := ['"', '\'']

/-- Modelled from the spec: the pipe operator (`constants.REDIRECTION_PIPE`). -/
def REDIRECTION_PIPE : String := "|"

/-- Modelled from the spec: the truncating redirection operator
(`constants.REDIRECTION_OUTPUT`). -/
def REDIRECTION_OUTPUT : String := ">"

/-- Modelled from the spec: the appending redirection operator
(`constants.REDIRECTION_APPEND`). -/
def REDIRECTION_APPEND : String := ">>"

/-- Modelled from the spec: the redirection characters
(`constants.REDIRECTION_CHARS`), the pipe and the output character. -/
def REDIRECTION_CHARS : List String := [REDIRECTION_PIPE, REDIRECTION_OUTPUT]

/-- Modelled from the spec: the implicit end-of-line terminator
(`constants.LINE_FEED`). -/
def LINE_FEED : String := "\n"

/-- Membership in `constants.QUOTES`. -/
def isQuoteChar (c : Char) : Bool := QUOTES.contains c

/-- The whitespace characters of the stdlib `shlex` lexer (` \t\r\n`). -/
def isShlexWS (c : Char) : Bool := c = ' ' || c = '\t' || c = '\r' || c = '\n'

/-- Python's `\s` / `str.isspace` on the ASCII range: space, tab, line feed,
carriage return, vertical tab and form feed. -/
def isPyWS (c : Char) : Bool :=
  c = ' ' || c = '\t' || c = '\n' || c = '\r' || c = '\x0b' || c = '\x0c'

/-- Drop the rest of the current line, the terminating line feed included:
the effect of `instream.readline()` inside the `shlex` token loop. -/
def dropLine (cs : List Char) : List Char := (cs.dropWhile (· ≠ '\n')).drop 1

/-- The states of the stdlib `shlex` lexer restricted to the configuration
the source uses (`posix=False`, `whitespace_split=True`): between tokens,
inside an unquoted word, or inside a token that started with a quote
character. -/
inductive LexState where
  | ws : LexState
  | word : LexState
  | quoted : Char → LexState
deriving DecidableEq

/-- Modelled from the stdlib: one pass of `shlex.shlex(line, posix=False)`
with `whitespace_split = True`, as `StatementParser.tokenize` configures it.
Whitespace separates tokens; `#` starts a comment running to the end of the
line; a quote character opening a token starts a quoted section that runs to
the next occurrence of the same character and is emitted (quotes kept) as
soon as it closes; a quote character inside a word is an ordinary character.
Reaching the end of input inside a quoted section is the `ValueError`
("No closing quotation") of the source. The fuel argument is the input
length (every step consumes at least one character); at fuel 0 the
end-of-input behaviour applies. -/
def shlexRunF : Nat → List Char → LexState → String → List String →
    Except Unit (List String)
  | 0, _, st, tok, acc =>
    match st with
    | .quoted _ => .error ()
    | .ws => .ok acc.reverse
    | .word => .ok (tok :: acc).reverse
  | f + 1, cs, st, tok, acc =>
    match cs with
    | [] =>
      match st with
      | .quoted _ => .error ()
      | .ws => .ok acc.reverse
      | .word => .ok (tok :: acc).reverse
    | c :: rest =>
      match st with
      | .ws =>
        if isShlexWS c then shlexRunF f rest .ws tok acc
        else if c = '#' then shlexRunF f (dropLine rest) .ws tok acc
        else if isQuoteChar c then shlexRunF f rest (.quoted c) (String.mk [c]) acc
        else shlexRunF f rest .word (String.mk [c]) acc
      | .word =>
        if isShlexWS c then shlexRunF f rest .ws "" (tok :: acc)
        else if c = '#' then shlexRunF f (dropLine rest) .word tok acc
        else shlexRunF f rest .word (tok.push c) acc
      | .quoted q =>
        if c = q then shlexRunF f rest .ws "" ((tok.push c) :: acc)
        else shlexRunF f rest (.quoted q) (tok.push c) acc

/-- `list(shlex.shlex(line, posix=False))` with `whitespace_split = True`:
the whitespace/quote split of `StatementParser.tokenize`. -/
def shlexSplit (s : String) : Except Unit (List String) :=
  shlexRunF s.data.length s.data .ws "" []

/-- Scanner states for the spec-side "unclosed quote" predicate: outside any
token, inside an unquoted word, or inside an open quoted region. -/
inductive QScan where
  | outside : QScan
  | inWord : QScan
  | inQuote : Char → QScan
deriving DecidableEq

/-- Spec-side predicate, following the spec's words (error kind "Unterminated
quote": "a quote character is opened but never closed before end of input"),
with the tokenizer's notion of opening a quote: a quote character opens a
quoted region when it starts a token, runs to the next occurrence of the same
character, and `#` outside quotes discards the rest of the line. True when
the scan ends inside an open quoted region. -/
def unclosedQuoteF : Nat → List Char → QScan → Bool
  | 0, _, st =>
    match st with
    | .inQuote _ => true
    | _ => false
  | f + 1, cs, st =>
    match cs with
    | [] =>
      match st with
      | .inQuote _ => true
      | _ => false
    | c :: rest =>
      match st with
      | .outside =>
        if isShlexWS c then unclosedQuoteF f rest .outside
        else if c = '#' then unclosedQuoteF f (dropLine rest) .outside
        else if isQuoteChar c then unclosedQuoteF f rest (.inQuote c)
        else unclosedQuoteF f rest .inWord
      | .inWord =>
        if isShlexWS c then unclosedQuoteF f rest .outside
        else if c = '#' then unclosedQuoteF f (dropLine rest) .inWord
        else unclosedQuoteF f rest .inWord
      | .inQuote q =>
        if c = q then unclosedQuoteF f rest .outside
        else unclosedQuoteF f rest (.inQuote q)

/-- Whether a line has a quote character that is opened but never closed
before the end of the input. -/
def hasUnclosedQuote (s : String) : Bool :=
  unclosedQuoteF s.data.length s.data .outside

/-- Position just past the last occurrence of `*/` in the scanned list, the
scan having started `i` characters in, carrying the best answer so far: the
backtracking of the greedy `/\*.*\*/` alternative of `comment_pattern`
(`.*` is greedy and DOTALL, so the match runs to the last closer). -/
def lastStarSlashAux : List Char → Nat → Option Nat → Option Nat
  | [], _, best => best
  | c :: rest, i, best =>
    lastStarSlashAux rest (i + 1)
      (match rest with
       | d :: _ => if c = '*' && d = '/' then some (i + 2) else best
       | [] => best)

/-- Position just past the last occurrence of `*/`, or `none` when the list
has no comment closer. -/
def lastStarSlash (cs : List Char) : Option Nat := lastStarSlashAux cs 0 none

/-- Whether the list contains the comment closer `*/` anywhere. -/
def hasStarSlash : List Char → Bool
  | [] => false
  | c :: rest =>
    (match rest with
     | d :: _ => c = '*' && d = '/'
     | [] => false) || hasStarSlash rest

/-- Length (closing quote included) of the match of the quoted-string
alternative `'(?:\\.|[^\\'])*'` (resp. with `"`) of `comment_pattern`,
starting just after the opening quote: a backslash escapes the next
character, any other character except the quote is taken verbatim, and the
next bare occurrence of the quote closes; `none` when the quote never
closes (the alternative fails at this position). -/
def quotedLen (q : Char) : List Char → Option Nat
  | [] => none
  | '\\' :: _ :: rest => (quotedLen q rest).map (· + 2)
  | c :: rest => if c = q then some 1 else (quotedLen q rest).map (· + 1)

/-- Modelled from the source's `comment_pattern` together with
`_comment_replacer`: `re.sub` scans left to right preferring the earliest
position; at each position the comment alternative is tried first, then the
single- and double-quoted string alternatives; a comment match (which is
greedy, running to the last `*/` of the remaining input) is replaced by
nothing, a quoted-string match is kept verbatim, and a position where no
alternative matches is copied. After a successful comment match the
remaining input has no `*/` left, so no further comment can match and the
remainder is copied verbatim. Fuel is the input length; every step consumes
at least one character. -/
def stripCommentsF : Nat → List Char → List Char
  | 0, _ => []
  | _ + 1, [] => []
  | f + 1, c :: rest =>
    if c = '/' && rest.head? == some '*' then
      match lastStarSlash rest.tail with
      | some n => rest.tail.drop n
      | none => c :: stripCommentsF f rest
    else if isQuoteChar c then
      match quotedLen c rest with
      | some n => c :: (rest.take n ++ stripCommentsF f (rest.drop n))
      | none => c :: stripCommentsF f rest
    else c :: stripCommentsF f rest

/-- `re.sub(self.comment_pattern, self._comment_replacer, line)`: strip
C-style comments, leaving quoted strings intact. -/
def stripComments (s : String) : String :=
  String.mk (stripCommentsF s.data.length s.data)

/-- The literal alternatives of the second group of `_command_pattern`, in
the order `__init__` builds them: the quote characters, the redirection
characters, then the configured terminators (each `re.escape`d, so each is a
literal). The `\s` and `\Z` alternatives follow them. -/
def secondGroupItems (terms : List String) : List String :=
  QUOTES.map (fun c => String.mk [c]) ++ REDIRECTION_CHARS ++ terms

/-- Match of the second group of `_command_pattern` at the head of the
input: the first listed literal that is a prefix, else a whitespace
character (`\s`), else — only at the end of the input — the empty `\Z`
match. Returns the matched characters and the rest. -/
def matchSeparator (terms : List String) (cs : List Char) :
    Option (List Char × List Char) :=
  match (secondGroupItems terms).find? (fun t => t.data.isPrefixOf cs) with
  | some t => some (t.data, cs.drop t.data.length)
  | none =>
    match cs with
    | [] => some ([], [])
    | c :: rest => if isPyWS c then some ([c], rest) else none

/-- Scan for the earliest position where the second group matches, growing
the lazily-matched first group `(\S*?)` one character at a time: the
backtracking behaviour of `_command_pattern` after its `\A\s*`. Returns
(first group, second group, rest after the second group). -/
def commandSearchAux (terms : List String) (g1 : List Char) :
    List Char → List Char × List Char × List Char
  | [] => (g1.reverse, [], [])
  | c :: rest =>
    match matchSeparator terms (c :: rest) with
    | some (g2, r) => (g1.reverse, g2, r)
    | none => commandSearchAux terms (c :: g1) rest

/-- Modelled from the source's `_command_pattern`
(`\A\s*(\S*?)(quotes|redirectors|terminators|\s|\Z)`): skip leading
whitespace, then the first group takes the shortest run of characters after
which some second-group alternative matches. The pattern always matches
(`\Z` matches at the end), mirroring that `re.search` with this pattern
never returns `None`. -/
def commandSearch (terms : List String) (cs : List Char) :
    List Char × List Char × List Char :=
  commandSearchAux terms [] (cs.dropWhile isPyWS)

/-- Characters `shlex.quote` passes through unquoted. -/
def shlexSafe (c : Char) : Bool :=
  c.isAlphanum || c = '_' || c = '@' || c = '%' || c = '+' || c = '=' ||
    c = ':' || c = ',' || c = '.' || c = '/' || c = '-'

/-- Modelled from the stdlib: `shlex.quote` — the empty string becomes `''`,
a string of safe characters is returned as is, anything else is wrapped in
single quotes with embedded single quotes escaped. -/
def shlexQuote (s : String) : String :=
  if s = "" then "''"
  else if s.data.all shlexSafe then s
  else "'" ++ String.mk ((s.data.map
    (fun c => if c = '\'' then ['\'', '"', '\'', '"', '\''] else [c])).flatten) ++ "'"

/-- `StatementParser.is_valid_command`: a word is valid when the first match
group of `_command_pattern` equals the whole word; otherwise the
comma-separated description of the forbidden characters is returned. -/
def is_valid_command (terms : List String) (word : String) : Bool × String :=
  let errchars := REDIRECTION_CHARS ++ terms
  let errmsg := "whitespace, quotes, " ++
    String.intercalate ", " (errchars.map shlexQuote)
  let g := commandSearch terms word.data
  if word.data = g.1 then (true, "") else (false, errmsg)

/-- Modelled from the spec: `utils.strip_quotes` (its source file is not in
the reviewed tree) — remove the first and last character when the argument
is longer than one character, starts and ends with the same character, and
that character is a quote character. -/
def strip_quotes (arg : String) : String :=
  match arg.data with
  | [] => arg
  | c :: rest =>
    if !rest.isEmpty && rest.getLast? == some c && isQuoteChar c then
      String.mk rest.dropLast
    else arg

/-- Modelled from the stdlib: `os.path.expanduser` — a path starting with
the bare home marker `~` (alone or followed by `/`) has the marker replaced
by the home directory; a `~user` form or a path without the marker is
returned unchanged (the named-user lookup is outside this model). -/
def expanduser (home : String) (p : String) : String :=
  match p.data with
  | '~' :: rest =>
    match rest with
    | [] => home
    | '/' :: _ => home ++ String.mk rest
    | _ => p
  | _ => p

/-- Remove the first alias whose name equals the given command from the
working alias list, returning its expansion and the list without it: the
`command == cur_alias` test of the `for cur_alias in tmp_aliases` loop
together with `tmp_aliases.remove(cur_alias)` (alias names are the keys of
a dict, hence unique, so pairing each name with its expansion is faithful).
-/
def removeAlias (cmd : String) : List (String × String) →
    Option (String × List (String × String))
  | [] => none
  | (n, e) :: rest =>
    if n = cmd then some (e, rest)
    else
      match removeAlias cmd rest with
      | some (e', rest') => some (e', (n, e) :: rest')
      | none => none

/-- The alias loop of `StatementParser._expand`: while some not-yet-consumed
alias name equals the leading command word, replace the word (keeping the
separator the pattern matched after it) by the alias's expansion and remove
that alias from the working list. Also counts the replacements performed.
Fuel is the length of the working list, which shrinks by one at every
replacement; at fuel 0 the working list is exhausted and the loop exits. -/
def expandAliasesF (terms : List String) : Nat → List (String × String) →
    String → String × Nat
  | 0, _, line => (line, 0)
  | f + 1, tmp, line =>
    let g := commandSearch terms line.data
    let cmd := String.mk g.1
    if cmd = "" then (line, 0)
    else
      match removeAlias cmd tmp with
      | some (exp, tmp') =>
        let r := expandAliasesF terms f tmp'
          (exp ++ String.mk g.2.1 ++ String.mk g.2.2)
        (r.1, r.2 + 1)
      | none => (line, 0)

/-- Alias expansion over a full alias table, with the number of
replacements performed. -/
def expandAliases (terms : List String) (aliases : List (String × String))
    (line : String) : String × Nat :=
  expandAliasesF terms aliases.length aliases line

/-- The shortcut loop of `StatementParser._expand`: the first configured
shortcut that is a literal prefix of the line is expanded once (the
expansion getting a trailing space unless the character after the shortcut
already is a space), and the loop breaks. -/
def expandShortcuts : List (String × String) → String → String
  | [], line => line
  | (sc, exp) :: rest, line =>
    if sc.data.isPrefixOf line.data then
      let after := line.data.drop sc.data.length
      let needsSpace :=
        match after with
        | [] => true
        | c :: _ => c ≠ ' '
      (if needsSpace then exp ++ " " else exp) ++ String.mk after
    else expandShortcuts rest line

/-- The parser's configuration, as `StatementParser.__init__` stores it.
`aliases` is the alias dict as an ordered association list (dict keys are
unique and iterate in insertion order); `home` is the home directory
`os.path.expanduser` substitutes for a leading `~`. -/
structure StatementParser where
  allow_redirection : Bool
  terminators : List String
  multiline_commands : List String
  aliases : List (String × String)
  shortcuts : List (String × String)
  home : String
deriving DecidableEq

/-- `StatementParser._expand`: alias expansion, then shortcut expansion. -/
def expand (p : StatementParser) (line : String) : String :=
  expandShortcuts p.shortcuts (expandAliases p.terminators p.aliases line).1

/-- The punctuation list `_split_on_punctuation` builds: the terminators,
plus the redirection characters when redirection is allowed. -/
def punctuationOf (p : StatementParser) : List String :=
  p.terminators ++ (if p.allow_redirection then REDIRECTION_CHARS else [])

/-- Membership of one character in the punctuation list (whose entries are
one-character strings for every entry that can ever match). -/
def charInPunct (punct : List String) (c : Char) : Bool :=
  punct.contains (String.mk [c])

/-- The character loop of `_split_on_punctuation` over one token: a maximal
run of non-punctuation characters, or a maximal run of one repeated
punctuation character, becomes one token. Fuel is the token length; every
emitted run consumes at least one character. -/
def splitPunctRunsF (punct : List String) : Nat → List Char → List String
  | 0, _ => []
  | _ + 1, [] => []
  | f + 1, c :: rest =>
    if charInPunct punct c then
      String.mk (c :: rest.takeWhile (· == c)) ::
        splitPunctRunsF punct f (rest.dropWhile (· == c))
    else
      String.mk (c :: rest.takeWhile (fun x => !charInPunct punct x)) ::
        splitPunctRunsF punct f (rest.dropWhile (fun x => !charInPunct punct x))

/-- Split one token into punctuation runs. -/
def splitPunctRuns (punct : List String) (cs : List Char) : List String :=
  splitPunctRunsF punct cs.length cs

/-- `StatementParser._split_on_punctuation`: tokens of length at most one,
and tokens beginning with a quote character, pass through; every other
token is split into punctuation runs. -/
def splitOnPunctuation (punct : List String) (tokens : List String) :
    List String :=
  (tokens.map fun tok =>
    if tok.length ≤ 1 ||
        (match tok.data with
         | c :: _ => isQuoteChar c
         | [] => false) then [tok]
    else splitPunctRuns punct tok.data).flatten

/-- `StatementParser.tokenize`: strip comments, expand aliases and
shortcuts, split on whitespace with `shlex`, then split on punctuation.
The `Except` error is the `ValueError` for an unclosed quotation mark. -/
def tokenize (p : StatementParser) (line : String) :
    Except Unit (List String) :=
  (shlexSplit (expand p (stripComments line))).map
    (splitOnPunctuation (punctuationOf p))

/-- The `Statement` value: a `str` subclass in the source, embedded as a
record whose `strVal` field is the underlying string (`__new__` builds the
`str` part from the `args` argument) next to the attributes `attrs`
initializes. -/
structure Statement where
  strVal : String
  args : String
  raw : String
  command : String
  arg_list : List String
  multiline_command : String
  terminator : String
  suffix : String
  pipe_to : List String
  output : String
  output_to : String
deriving DecidableEq

/-- Construct a `Statement` the way `Statement.__new__` plus the generated
`__init__` do: the underlying string value is the `args` argument. -/
def mkStatement (args raw command : String) (arg_list : List String)
    (multiline_command terminator suffix : String) (pipe_to : List String)
    (output output_to : String) : Statement :=
  { strVal := args, args := args, raw := raw, command := command,
    arg_list := arg_list, multiline_command := multiline_command,
    terminator := terminator, suffix := suffix, pipe_to := pipe_to,
    output := output, output_to := output_to }

/-- `StatementParser._command_and_args`: the first token is the command and
the rest, space-joined, the args (joining no tokens yields the empty
string, as `' '.join` does). -/
def command_and_args (tokens : List String) : String × String :=
  match tokens with
  | [] => ("", "")
  | c :: rest => (c, " ".intercalate rest)

/-- The implicit terminator `parse` records before tokenizing:
`line[-1:] == LINE_FEED`. -/
def implicitTerminator (line : String) : String :=
  if line.data.getLast? == some '\n' then LINE_FEED else ""

/-- The terminator scan of `parse`: the first token that starts with a
configured terminator (terminators tried in configuration order on each
token), with its position. -/
def findTerminatorAux (terms : List String) : List String → Nat →
    Option (Nat × String)
  | [], _ => none
  | tok :: rest, i =>
    match terms.find? (fun t => t.data.isPrefixOf tok.data) with
    | some t => some (i, t)
    | none => findTerminatorAux terms rest (i + 1)

/-- What the terminator-handling part of `parse` produces: the terminator,
the command/args/arg_list as far as they are fixed by it, and the tokens
remaining for the suffix/redirection/pipe handling. -/
structure TermSplit where
  terminator : String
  command : String
  args : String
  arg_list : List String
  remaining : List String
deriving DecidableEq

/-- Lines 268–316 of the source: take the implicit line-feed terminator,
let the token scan overwrite it, fix its position at end-of-tokens when it
is the line feed, split command/args at the terminator; with no terminator,
a multiline command commits the whole token list to command/args and leaves
nothing for redirection. -/
def termStage (p : StatementParser) (t0 : String) (tokens : List String) :
    TermSplit :=
  let scan := findTerminatorAux p.terminators tokens 0
  let term :=
    match scan with
    | some (_, t) => t
    | none => t0
  let pos0 :=
    match scan with
    | some (i, _) => i
    | none => tokens.length + 1
  if term ≠ "" then
    let pos := if term = LINE_FEED then tokens.length + 1 else pos0
    let ca := command_and_args (tokens.take pos)
    { terminator := term, command := ca.1, args := ca.2,
      arg_list := (tokens.take pos).drop 1,
      remaining := tokens.drop (pos + 1) }
  else
    let ca := command_and_args tokens
    if p.multiline_commands.contains ca.1 then
      { terminator := "", command := ca.1, args := ca.2,
        arg_list := tokens.drop 1, remaining := [] }
    else
      { terminator := "", command := "", args := "", arg_list := [],
        remaining := tokens }

/-- Lines 318–337 of the source: everything after the first pipe token
becomes `pipe_to` (each token unquoted and home-expanded) and is removed
from the working token list; without a pipe, `pipe_to` is empty. -/
def pipeStage (p : StatementParser) (tokens : List String) :
    List String × List String :=
  match tokens.findIdx? (· == REDIRECTION_PIPE) with
  | some i =>
    ((tokens.drop (i + 1)).map (fun t => expanduser p.home (strip_quotes t)),
      tokens.take i)
  | none => ([], tokens)

/-- One redirection search of `parse` (lines 341–353 resp. 355–367): find
the operator token; when found, the token after it (if any) is unquoted and
home-expanded into the target, the previous target surviving when there is
none, and the operator token and everything after it are removed. -/
def redirectOne (p : StatementParser) (op : String) (prev : String × String)
    (tokens : List String) : (String × String) × List String :=
  match tokens.findIdx? (· == op) with
  | some i =>
    let target :=
      match tokens.drop (i + 1) with
      | t :: _ => expanduser p.home (strip_quotes t)
      | [] => prev.2
    ((op, target), tokens.take i)
  | none => (prev, tokens)

/-- Both redirection searches in the order the source runs them: `>` first,
then `>>` on the already-truncated token list, the second overwriting the
first when it finds its operator. -/
def redirectStage (p : StatementParser) (tokens : List String) :
    (String × String) × List String :=
  let r1 := redirectOne p REDIRECTION_OUTPUT ("", "") tokens
  redirectOne p REDIRECTION_APPEND r1.1 r1.2

/-- Lines 369–378 of the source: with a terminator, the leftover tokens
space-joined become the suffix; without one, the command and args are
derived from the leftover tokens unless the multiline branch already set
them. -/
def finalStage (ts : TermSplit) (tokens : List String) :
    String × String × List String × String :=
  if ts.terminator ≠ "" then
    (ts.command, ts.args, ts.arg_list, " ".intercalate tokens)
  else
    if ts.command = "" then
      let ca := command_and_args tokens
      (ca.1, ca.2, tokens.drop 1, "")
    else (ts.command, ts.args, ts.arg_list, "")

/-- Everything `StatementParser.parse` does after tokenization, assembling
the `Statement`. -/
def parsePost (p : StatementParser) (line : String) (tokens : List String) :
    Statement :=
  let ts := termStage p (implicitTerminator line) tokens
  let pr := pipeStage p ts.remaining
  let rr := redirectStage p pr.2
  let fin := finalStage ts rr.2
  let mlc := if p.multiline_commands.contains fin.1 then fin.1 else ""
  mkStatement fin.2.1 line fin.1 fin.2.2.1 mlc ts.terminator fin.2.2.2 pr.1
    rr.1.1 rr.1.2

/-- `StatementParser.parse`: tokenize and assemble; the tokenizer's
unclosed-quote error propagates. -/
def parse (p : StatementParser) (line : String) : Except Unit Statement :=
  (tokenize p line).map (parsePost p line)

/-- Right-strip as Python's `str.rstrip()` does (ASCII whitespace). -/
def rstripPy (s : String) : String :=
  String.mk (s.data.reverse.dropWhile isPyWS).reverse

/-- `StatementParser.parse_command_only`: expand aliases and shortcuts,
take the command from the first match group of `_command_pattern`, the args
from the text after the second group right-stripped (forced empty when the
command or the args are empty), and build a `Statement` whose other fields
keep their defaults. -/
def parse_command_only (p : StatementParser) (rawinput : String) : Statement :=
  let line := expand p rawinput
  let g := commandSearch p.terminators line.data
  let command := String.mk g.1
  let args0 := rstripPy (String.mk g.2.2)
  let args := if command = "" || args0 = "" then "" else args0
  let mlc := if p.multiline_commands.contains command then command else ""
  mkStatement args rawinput command [] mlc "" "" [] "" ""

/-- The default configuration of `StatementParser.__init__`:
redirection allowed, terminators `[";"]`, no multiline commands, aliases or
shortcuts. -/
def defaultParser : StatementParser :=
  { allow_redirection := true, terminators := [";"],
    multiline_commands := [], aliases := [], shortcuts := [],
    home := "/root" }

/-- The default configuration with the terminators replaced by `[";", ":"]`.
-/
def colonParser : StatementParser :=
  { allow_redirection := true, terminators := [";", ":"],
    multiline_commands := [], aliases := [], shortcuts := [],
    home := "/root" }

/-- The default configuration with `multiline_commands=["sql"]`. -/
def sqlParser : StatementParser :=
  { allow_redirection := true, terminators := [";"],
    multiline_commands := ["sql"], aliases := [], shortcuts := [],
    home := "/root" }

/-- The quote-scanner state corresponding to a lexer state. -/
def qstateOf : LexState → QScan
  | .ws => .outside
  | .word => .inWord
  | .quoted q => .inQuote q

/-- The lexer fails exactly when the quote scanner ends inside an open
quoted region: the two machines take the same branches, the lexer merely
also builds tokens. -/
theorem shlexRunF_error_iff (f : Nat) :
    ∀ (cs : List Char) (st : LexState) (tok : String) (acc : List String),
      (shlexRunF f cs st tok acc = Except.error ()) ↔
        unclosedQuoteF f cs (qstateOf st) = true := by
  induction f with
  | zero =>
    intro cs st tok acc
    cases st <;> simp [shlexRunF, unclosedQuoteF, qstateOf]
  | succ f ih =>
    intro cs st tok acc
    cases cs with
    | nil => cases st <;> simp [shlexRunF, unclosedQuoteF, qstateOf]
    | cons c rest =>
      cases st with
      | ws =>
        simp only [shlexRunF, unclosedQuoteF, qstateOf]
        split_ifs <;> apply ih
      | word =>
        simp only [shlexRunF, unclosedQuoteF, qstateOf]
        split_ifs <;> apply ih
      | quoted q =>
        simp only [shlexRunF, unclosedQuoteF, qstateOf]
        split_ifs <;> apply ih

/-- An `Except Unit` value mapped by a function is the error exactly when
the original is. -/
theorem except_map_error {α β : Type} (g : α → β) (e : Except Unit α) :
    (e.map g = Except.error ()) ↔ e = Except.error () := by
  cases e with
  | error u => cases u; simp [Except.map]
  | ok a => simp [Except.map]

/-- `parse` fails exactly when the comment-stripped, alias/shortcut-expanded
line has an unclosed quote. -/
theorem parse_error_iff (p : StatementParser) (line : String) :
    (parse p line = Except.error ()) ↔
      hasUnclosedQuote (expand p (stripComments line)) = true := by
  rw [parse, except_map_error, tokenize, except_map_error, shlexSplit,
    hasUnclosedQuote]
  exact shlexRunF_error_iff _ _ _ _ _

/-- A string whose character list is a cons is not the empty string. -/
theorem mk_cons_ne_empty (c : Char) (l : List Char) : String.mk (c :: l) ≠ "" := by
  intro h
  have : (String.mk (c :: l)).data = ("" : String).data := by rw [h]
  simp at this

/-- Pushing a character yields a nonempty string. -/
theorem push_ne_empty (s : String) (c : Char) : s.push c ≠ "" := by
  intro h
  have : (s.push c).data = ("" : String).data := by rw [h]
  simp [String.push] at this

/-- Every token the lexer emits is nonempty. -/
theorem shlexRunF_tokens_ne (f : Nat) :
    ∀ (cs : List Char) (st : LexState) (tok : String) (acc : List String)
      (toks : List String),
      (st = LexState.word → tok ≠ "") → (∀ t ∈ acc, t ≠ "") →
      shlexRunF f cs st tok acc = Except.ok toks → ∀ t ∈ toks, t ≠ "" := by
  induction f with
  | zero =>
    intro cs st tok acc toks hw ha h t ht
    cases st with
    | ws =>
      simp [shlexRunF] at h
      subst h
      exact ha t (by simpa using ht)
    | word =>
      simp [shlexRunF] at h
      subst h
      rcases (by simpa using ht : t ∈ acc ∨ t = tok) with h1 | h1
      · exact ha t h1
      · exact h1 ▸ hw rfl
    | quoted q => simp [shlexRunF] at h
  | succ f ih =>
    intro cs st tok acc toks hw ha h t ht
    cases cs with
    | nil =>
      cases st with
      | ws =>
        simp [shlexRunF] at h
        subst h
        exact ha t (by simpa using ht)
      | word =>
        simp [shlexRunF] at h
        subst h
        rcases (by simpa using ht : t ∈ acc ∨ t = tok) with h1 | h1
        · exact ha t h1
        · exact h1 ▸ hw rfl
      | quoted q => simp [shlexRunF] at h
    | cons c rest =>
      cases st with
      | ws =>
        simp only [shlexRunF] at h
        split_ifs at h with h1 h2 h3
        · exact ih _ _ _ _ _ hw ha h t ht
        · exact ih _ _ _ _ _ hw ha h t ht
        · exact ih _ _ _ _ _ (by intro hst; cases hst) ha h t ht
        · exact ih _ _ _ _ _ (fun _ => mk_cons_ne_empty c []) ha h t ht
      | word =>
        simp only [shlexRunF] at h
        split_ifs at h with h1 h2
        · refine ih _ _ _ _ _ (by intro hst; cases hst) ?_ h t ht
          intro u hu
          rcases List.mem_cons.mp hu with hu | hu
          · exact hu ▸ hw rfl
          · exact ha u hu
        · exact ih _ _ _ _ _ hw ha h t ht
        · exact ih _ _ _ _ _ (fun _ => push_ne_empty tok c) ha h t ht
      | quoted q =>
        simp only [shlexRunF] at h
        split_ifs at h with h1
        · refine ih _ _ _ _ _ (by intro hst; cases hst) ?_ h t ht
          intro u hu
          rcases List.mem_cons.mp hu with hu | hu
          · exact hu ▸ push_ne_empty tok c
          · exact ha u hu
        · exact ih _ _ _ _ _ (fun _ => push_ne_empty tok c) ha h t ht

/-- Every run the punctuation splitter emits is nonempty. -/
theorem splitPunctRunsF_tokens_ne (punct : List String) (f : Nat) :
    ∀ (cs : List Char) (t : String), t ∈ splitPunctRunsF punct f cs → t ≠ "" := by
  induction f with
  | zero => intro cs t ht; simp [splitPunctRunsF] at ht
  | succ f ih =>
    intro cs t ht
    cases cs with
    | nil => simp [splitPunctRunsF] at ht
    | cons c rest =>
      simp only [splitPunctRunsF] at ht
      split_ifs at ht <;>
        rcases (by simpa using ht) with h1 | h1 <;>
        first
          | exact h1 ▸ mk_cons_ne_empty _ _
          | exact ih _ _ h1

/-- Every token `tokenize` returns is nonempty. -/
theorem tokenize_tokens_ne (p : StatementParser) (line : String)
    (toks : List String) (h : tokenize p line = Except.ok toks) :
    ∀ t ∈ toks, t ≠ "" := by
  rw [tokenize] at h
  cases hs : shlexSplit (expand p (stripComments line)) with
  | error u => rw [hs] at h; simp [Except.map] at h
  | ok pre =>
    rw [hs] at h
    simp only [Except.map, Except.ok.injEq] at h
    subst h
    intro t ht
    rcases List.mem_flatten.mp ht with ⟨grp, hgrp, htg⟩
    rcases List.mem_map.mp hgrp with ⟨tok, htok, hgeq⟩
    have htokne : tok ≠ "" :=
      shlexRunF_tokens_ne _ _ _ _ _ _ (by intro hst; cases hst)
        (by intro u hu; cases hu) hs tok htok
    rw [← hgeq] at htg
    split_ifs at htg
    · rcases (by simpa using htg) with h1
      exact h1 ▸ htokne
    · exact splitPunctRunsF_tokens_ne _ _ _ _ htg

/-- A token list with nonempty tokens whose derived command is empty is the
empty list. -/
theorem command_and_args_empty (l : List String) (hne : ∀ t ∈ l, t ≠ "")
    (h : (command_and_args l).1 = "") : l = [] := by
  cases l with
  | nil => rfl
  | cons c rest => exact absurd h (hne c (by simp))

/-- When the terminator stage leaves the command empty, it leaves args and
arg_list empty as well (given nonempty tokens). -/
theorem termStage_command_empty (p : StatementParser) (t0 : String)
    (toks : List String) (hne : ∀ t ∈ toks, t ≠ "")
    (hc : (termStage p t0 toks).command = "") :
    (termStage p t0 toks).args = "" ∧ (termStage p t0 toks).arg_list = [] := by
  simp only [termStage] at hc ⊢
  split_ifs at hc ⊢ with h1 h2 h3
  -- the two terminator branches (line-feed position or scan position),
  -- the multiline branch, and the branch that sets nothing
  · dsimp only at hc ⊢
    have hnil := command_and_args_empty _
      (fun t ht => hne t (List.take_subset _ _ ht)) hc
    rw [hnil]
    simp [command_and_args]
  · dsimp only at hc ⊢
    have hnil := command_and_args_empty _
      (fun t ht => hne t (List.take_subset _ _ ht)) hc
    rw [hnil]
    simp [command_and_args]
  · dsimp only at hc ⊢
    have hnil : toks = [] := command_and_args_empty _ hne hc
    subst hnil
    simp [command_and_args]
  · exact ⟨rfl, rfl⟩

/-- The tokens the terminator stage leaves over all come from the input
token list. -/
theorem termStage_remaining_subset (p : StatementParser) (t0 : String)
    (toks : List String) :
    ∀ t ∈ (termStage p t0 toks).remaining, t ∈ toks := by
  simp only [termStage]
  split_ifs with h1 h2 h3
  · intro t ht
    exact List.drop_subset _ _ ht
  · intro t ht
    exact List.drop_subset _ _ ht
  · intro t ht
    simp at ht
  · intro t ht
    exact ht

/-- The tokens the pipe stage leaves over all come from its input. -/
theorem pipeStage_snd_subset (p : StatementParser) (toks : List String) :
    ∀ t ∈ (pipeStage p toks).2, t ∈ toks := by
  simp only [pipeStage]
  cases h : toks.findIdx? (· == REDIRECTION_PIPE) with
  | none => intro t ht; exact ht
  | some i => intro t ht; exact List.take_subset _ _ ht

/-- The tokens one redirection search leaves over all come from its input. -/
theorem redirectOne_snd_subset (p : StatementParser) (op : String)
    (prev : String × String) (toks : List String) :
    ∀ t ∈ (redirectOne p op prev toks).2, t ∈ toks := by
  simp only [redirectOne]
  cases h : toks.findIdx? (· == op) with
  | none => intro t ht; exact ht
  | some i => intro t ht; exact List.take_subset _ _ ht

/-- The tokens the redirection stage leaves over all come from its input. -/
theorem redirectStage_snd_subset (p : StatementParser) (toks : List String) :
    ∀ t ∈ (redirectStage p toks).2, t ∈ toks := by
  simp only [redirectStage]
  intro t ht
  exact redirectOne_snd_subset _ _ _ _ _
    (redirectOne_snd_subset _ _ _ _ _ ht)

/-- When the final stage leaves the command empty, it leaves args and
arg_list empty as well. -/
theorem finalStage_command_empty (ts : TermSplit) (tokens : List String)
    (hts : ts.command = "" → ts.args = "" ∧ ts.arg_list = [])
    (hne : ∀ t ∈ tokens, t ≠ "")
    (hc : (finalStage ts tokens).1 = "") :
    (finalStage ts tokens).2.1 = "" ∧ (finalStage ts tokens).2.2.1 = [] := by
  simp only [finalStage] at hc ⊢
  split_ifs at hc ⊢ with h1 h2
  · exact hts hc
  · dsimp only at hc ⊢
    have hnil : tokens = [] := command_and_args_empty _ hne hc
    subst hnil
    simp [command_and_args]
  · exact absurd hc h2

/-- When `parsePost` produces an empty command, the args, arg_list and
multiline_command fields are empty too (given nonempty tokens). -/
theorem parsePost_command_empty (p : StatementParser) (line : String)
    (toks : List String) (hne : ∀ t ∈ toks, t ≠ "")
    (hc : (parsePost p line toks).command = "") :
    (parsePost p line toks).args = "" ∧
      (parsePost p line toks).arg_list = [] ∧
      (parsePost p line toks).multiline_command = "" := by
  have hts := termStage_command_empty p (implicitTerminator line) toks hne
  have hrem : ∀ t ∈ (redirectStage p
      (pipeStage p (termStage p (implicitTerminator line) toks).remaining).2).2,
      t ≠ "" := by
    intro t ht
    exact hne t (termStage_remaining_subset _ _ _ _
      (pipeStage_snd_subset _ _ _ (redirectStage_snd_subset _ _ _ ht)))
  simp only [parsePost, mkStatement] at hc ⊢
  have hfin := finalStage_command_empty _ _ hts hrem hc
  refine ⟨hfin.1, hfin.2, ?_⟩
  rw [hc]
  exact ite_self ""

/-- When the token scan finds no configured terminator but the line ended
with the line feed, the terminator is the line feed, its position is fixed
past the end of the tokens, and all tokens become command/args with nothing
left for suffix, pipe or redirection. -/
theorem parsePost_linefeed (p : StatementParser) (line : String)
    (toks : List String)
    (hscan : findTerminatorAux p.terminators toks 0 = none)
    (hlf : implicitTerminator line = LINE_FEED) :
    parsePost p line toks =
      mkStatement (command_and_args toks).2 line (command_and_args toks).1
        (toks.drop 1)
        (if p.multiline_commands.contains (command_and_args toks).1 then
          (command_and_args toks).1 else "")
        LINE_FEED "" [] "" "" := by
  have hterm : termStage p (implicitTerminator line) toks =
      { terminator := LINE_FEED, command := (command_and_args toks).1,
        args := (command_and_args toks).2, arg_list := toks.drop 1,
        remaining := [] } := by
    simp only [termStage, hscan, hlf]
    rw [if_pos (by decide : (LINE_FEED ≠ ""))]
    simp only [ite_self]
    have hdrop : List.drop (toks.length + 1 + 1) toks = [] :=
      List.drop_eq_nil_of_le (by omega)
    rw [List.take_of_length_le (by omega), hdrop]
  simp only [parsePost, hterm, pipeStage, redirectStage, redirectOne,
    finalStage]
  rw [if_pos (by decide : (LINE_FEED ≠ ""))]
  rfl

/-- Without any terminator, a registered multiline command commits the
whole token list to command/args and leaves nothing for pipe or
redirection. -/
theorem parsePost_multiline (p : StatementParser) (line : String)
    (tok0 : String) (rest : List String)
    (hscan : findTerminatorAux p.terminators (tok0 :: rest) 0 = none)
    (hlf : implicitTerminator line = "")
    (hml : p.multiline_commands.contains tok0 = true)
    (hne : tok0 ≠ "") :
    parsePost p line (tok0 :: rest) =
      mkStatement (" ".intercalate rest) line tok0 rest tok0 "" "" [] "" "" := by
  have hterm : termStage p (implicitTerminator line) (tok0 :: rest) =
      { terminator := "", command := tok0, args := " ".intercalate rest,
        arg_list := rest, remaining := [] } := by
    simp only [termStage, hscan, hlf]
    rw [if_neg (by simp), if_pos]
    · rfl
    · exact hml
  simp only [parsePost, hterm, pipeStage, redirectStage, redirectOne,
    finalStage]
  rw [if_neg (by simp), if_neg hne, if_pos hml]
  rfl

/-- A list without the comment closer has none in its tail either. -/
theorem hasStarSlash_tail (c : Char) (cs : List Char)
    (h : hasStarSlash (c :: cs) = false) : hasStarSlash cs = false := by
  simp only [hasStarSlash, Bool.or_eq_false_iff] at h
  exact h.2

/-- A list without the comment closer has none after dropping characters. -/
theorem hasStarSlash_drop (n : Nat) :
    ∀ (cs : List Char), hasStarSlash cs = false →
      hasStarSlash (cs.drop n) = false := by
  induction n with
  | zero => intro cs h; simpa using h
  | succ n ih =>
    intro cs h
    cases cs with
    | nil => simpa using h
    | cons c rest => exact ih rest (hasStarSlash_tail c rest h)

/-- The closer search returns the carried answer when there is no closer. -/
theorem lastStarSlashAux_of_no_close :
    ∀ (cs : List Char) (i : Nat) (best : Option Nat),
      hasStarSlash cs = false → lastStarSlashAux cs i best = best := by
  intro cs
  induction cs with
  | nil => intro i best h; rfl
  | cons c rest ih =>
    intro i best h
    have hrest := hasStarSlash_tail c rest h
    cases rest with
    | nil => rfl
    | cons d tail =>
      simp only [hasStarSlash, Bool.or_eq_false_iff] at h
      simp only [lastStarSlashAux]
      rw [if_neg (by simp_all)]
      exact ih i.succ best hrest

/-- An input with no comment closer anywhere passes through the comment
stripper unchanged: in particular an unterminated comment delimiter and
everything after it are left intact. -/
theorem stripCommentsF_id (f : Nat) :
    ∀ (cs : List Char), cs.length ≤ f → hasStarSlash cs = false →
      stripCommentsF f cs = cs := by
  induction f with
  | zero =>
    intro cs hlen _
    have : cs = [] := List.eq_nil_of_length_eq_zero (by omega)
    subst this
    rfl
  | succ f ih =>
    intro cs hlen hss
    cases cs with
    | nil => rfl
    | cons c rest =>
      have hrest := hasStarSlash_tail c rest hss
      simp only [stripCommentsF]
      split_ifs with h1 h2
      · have htail : hasStarSlash rest.tail = false := by
          cases rest with
          | nil => rfl
          | cons d t => exact hasStarSlash_tail d t hrest
        rw [lastStarSlash, lastStarSlashAux_of_no_close _ _ _ htail]
        rw [ih rest (by simpa using hlen) hrest]
      · cases hq : quotedLen c rest with
        | some n =>
          dsimp only
          rw [ih (rest.drop n)
            (by have := List.length_drop n rest; simp at hlen ⊢; omega)
            (hasStarSlash_drop n rest hrest)]
          rw [List.take_append_drop]
        | none =>
          dsimp only
          rw [ih rest (by simpa using hlen) hrest]
      · rw [ih rest (by simpa using hlen) hrest]

/-- `stripComments` leaves any line without a comment closer unchanged. -/
theorem stripComments_id (s : String) (h : hasStarSlash s.data = false) :
    stripComments s = s := by
  rw [stripComments, stripCommentsF_id _ _ (Nat.le_refl _) h]

/-- The first group of the command pattern never grows past the scanned
input (plus the accumulator). -/
theorem commandSearchAux_length_le (terms : List String) :
    ∀ (cs : List Char) (g1 : List Char),
      (commandSearchAux terms g1 cs).1.length ≤ g1.length + cs.length := by
  intro cs
  induction cs with
  | nil => intro g1; simp [commandSearchAux]
  | cons c rest ih =>
    intro g1
    simp only [commandSearchAux]
    cases h : matchSeparator terms (c :: rest) with
    | some g2r => simp
    | none =>
      have := ih (c :: g1)
      simp only [List.length_cons] at this ⊢
      omega

/-- The first group consumes the whole scanned input exactly when no
nonempty suffix of it matches a second-group alternative. -/
theorem commandSearchAux_full_iff (terms : List String) :
    ∀ (cs : List Char) (g1 : List Char),
      ((commandSearchAux terms g1 cs).1 = g1.reverse ++ cs) ↔
        (∀ n, n < cs.length → matchSeparator terms (cs.drop n) = none) := by
  intro cs
  induction cs with
  | nil => intro g1; simp [commandSearchAux]
  | cons c rest ih =>
    intro g1
    simp only [commandSearchAux]
    cases h : matchSeparator terms (c :: rest) with
    | some g2r =>
      dsimp only
      constructor
      · intro heq
        exfalso
        have := congrArg List.length heq
        simp at this
      · intro hall
        have h0 := hall 0 (by simp)
        simp only [List.drop_zero] at h0
        rw [h] at h0
        cases h0
    | none =>
      dsimp only
      rw [show g1.reverse ++ c :: rest = (c :: g1).reverse ++ rest by simp]
      rw [ih (c :: g1)]
      constructor
      · intro hall n hn
        cases n with
        | zero => simpa using h
        | succ m =>
          have := hall m (by simp at hn; omega)
          simpa using this
      · intro hall n hn
        have := hall (n + 1) (by simp; omega)
        simpa using this

/-- The second group always matches at the head of a suffix that starts
with a whitespace character. -/
theorem matchSeparator_ws (terms : List String) (c : Char) (rest : List Char)
    (hws : isPyWS c = true) :
    matchSeparator terms (c :: rest) ≠ none := by
  unfold matchSeparator
  cases h : (secondGroupItems terms).find? (fun t => t.data.isPrefixOf (c :: rest)) with
  | some t => simp
  | none => simp [hws]

/-- The validity test of `is_valid_command` holds exactly when the first
match group is the whole word. -/
theorem is_valid_command_eq_iff (terms : List String) (word : String) :
    (is_valid_command terms word).1 = true ↔
      word.data = (commandSearch terms word.data).1 := by
  simp only [is_valid_command]
  split_ifs with h
  · exact iff_of_true rfl h
  · exact iff_of_false (by simp) h

/-- `is_valid_command` accepts a word exactly when no nonempty suffix of it
matches a second-group alternative of the command pattern: no whitespace
character, no quote character, no redirection character and no configured
terminator occurs at any position of the word. -/
theorem is_valid_command_iff (terms : List String) (word : String) :
    (is_valid_command terms word).1 = true ↔
      (∀ n, n < word.data.length →
        matchSeparator terms (word.data.drop n) = none) := by
  rw [is_valid_command_eq_iff]
  unfold commandSearch
  cases hcs : word.data with
  | nil => simp [commandSearchAux]
  | cons c rest =>
    by_cases hws : isPyWS c = true
    · -- a leading whitespace character: invalid, and the suffix at 0 matches
      constructor
      · intro heq
        exfalso
        have hlen := commandSearchAux_length_le terms
          ((c :: rest).dropWhile isPyWS) []
        have hdw : (c :: rest).dropWhile isPyWS = rest.dropWhile isPyWS := by
          simp [List.dropWhile, hws]
        rw [hdw] at heq hlen
        have hle : (rest.dropWhile isPyWS).length ≤ rest.length :=
          List.Sublist.length_le (List.dropWhile_sublist _)
        have := congrArg List.length heq
        simp at this hlen
        omega
      · intro hall
        exact absurd (hall 0 (by simp)) (by simpa using matchSeparator_ws terms c rest hws)
    · -- no leading whitespace: the scan starts at the word itself
      have hdw : (c :: rest).dropWhile isPyWS = c :: rest := by
        simp [List.dropWhile, hws]
      rw [hdw]
      have := commandSearchAux_full_iff terms (c :: rest) []
      simp only [List.reverse_nil, List.nil_append] at this
      rw [← this]
      constructor
      · intro heq; exact heq.symm
      · intro heq; exact heq.symm

/-- The alias loop performs at most as many replacements as it has fuel,
hence at most one replacement per alias in the table. -/
theorem expandAliasesF_steps_le (terms : List String) :
    ∀ (f : Nat) (tmp : List (String × String)) (line : String),
      (expandAliasesF terms f tmp line).2 ≤ f := by
  intro f
  induction f with
  | zero => intro tmp line; simp [expandAliasesF]
  | succ f ih =>
    intro tmp line
    simp only [expandAliasesF]
    split_ifs with h1
    · simp
    · cases h : removeAlias (String.mk (commandSearch terms line.data).1) tmp with
      | some er =>
        dsimp only
        have := ih er.2 (er.1 ++ String.mk (commandSearch terms line.data).2.1 ++
          String.mk (commandSearch terms line.data).2.2)
        omega
      | none => simp

/-- Alias expansion performs at most one replacement per alias: the number
of replacement steps is bounded by the size of the alias table, whatever
the table (cyclic tables included) and the input line. -/
theorem expandAliases_steps_le (terms : List String)
    (aliases : List (String × String)) (line : String) :
    (expandAliases terms aliases line).2 ≤ aliases.length :=
  expandAliasesF_steps_le terms aliases.length aliases line

/-- The default configuration with the cyclic alias table
`a -> b, b -> a`. -/
def cyclicParser : StatementParser :=
  { allow_redirection := true, terminators := [";"],
    multiline_commands := [], aliases := [("a", "b"), ("b", "a")],
    shortcuts := [], home := "/root" }

/-- C1, counterexample: the claim says the implicit line-feed terminator
takes precedence over a configured terminator token present among the
tokens, so that `parse "cmd ; x\n"` would have the line-feed terminator;
the code lets the token scan overwrite the implicit terminator, and the
returned terminator is `";"`, not the line feed. -/
theorem c1_counterexample :
    (parse defaultParser "cmd ; x\n").map Statement.terminator =
        Except.ok ";" ∧
      (";" : String) ≠ LINE_FEED :=
  ⟨rfl, by decide⟩

/-- C1, amended: the implicit line-feed terminator applies only when the
token scan finds no configured terminator; in that case the terminator is
the line feed, its position is fixed at end-of-tokens, and all tokens
become command/args — the suffix is empty and no pipe or redirection is
parsed. -/
theorem c1_amended (p : StatementParser) (line : String) (toks : List String)
    (htok : tokenize p line = Except.ok toks)
    (hscan : findTerminatorAux p.terminators toks 0 = none)
    (hlf : line.data.getLast? = some '\n') :
    parse p line =
      Except.ok (mkStatement (command_and_args toks).2 line
        (command_and_args toks).1 (toks.drop 1)
        (if p.multiline_commands.contains (command_and_args toks).1 then
          (command_and_args toks).1 else "") LINE_FEED "" [] "" "") := by
  have hit : implicitTerminator line = LINE_FEED := by
    simp [implicitTerminator, hlf]
  rw [parse, htok]
  simp only [Except.map]
  rw [parsePost_linefeed p line toks hscan hit]

/-- C1, witness: the amended claim at `parse "cmd a\n"` under the default
configuration. -/
theorem c1_witness :
    parse defaultParser "cmd a\n" =
      Except.ok (mkStatement "a" "cmd a\n" "cmd" ["a"] "" LINE_FEED "" []
        "" "") :=
  c1_amended defaultParser "cmd a\n" ["cmd", "a"] rfl rfl rfl

/-- C2, counterexample: the claim says the suffix of
`parse "cmd a : b ; c"` with terminators `[";", ":"]` is exactly `"b"` with
the trailing `"; c"` discarded; the code joins every token after the first
terminator into the suffix, which is `"b ; c"`. -/
theorem c2_counterexample :
    (parse colonParser "cmd a : b ; c").map Statement.suffix =
        Except.ok "b ; c" ∧
      ("b ; c" : String) ≠ "b" :=
  ⟨rfl, by decide⟩

/-- C2, amended: with terminators `[";", ":"]`, `parse "cmd a : b ; c"`
terminates at `":"` (the first token matching any configured terminator),
yielding command `"cmd"`, args `"a"`, terminator `":"`, and suffix
`"b ; c"` — everything after the first terminator, the later `";"` and its
trailing text included, lands in the suffix. -/
theorem c2_amended :
    parse colonParser "cmd a : b ; c" =
      Except.ok (mkStatement "a" "cmd a : b ; c" "cmd" ["a"] "" ":" "b ; c"
        [] "" "") := rfl

/-- C3: pipe detection runs before redirection detection.
`parse "cmd | wc > out.txt"` puts every token after the pipe, unquoted,
into `pipe_to` and sets no output redirection; and in general, whenever the
working token list contains a pipe token, `pipe_to` is exactly the mapped
tokens after the first pipe and the output fields are computed by the
redirection searches over the tokens before the pipe only. -/
theorem c3_pipe_before_redirection :
    (parse defaultParser "cmd | wc > out.txt" =
      Except.ok (mkStatement "" "cmd | wc > out.txt" "cmd" [] "" "" ""
        ["wc", ">", "out.txt"] "" "")) ∧
    (∀ (p : StatementParser) (line : String) (toks : List String) (i : Nat),
      ((termStage p (implicitTerminator line) toks).remaining.findIdx?
        (· == REDIRECTION_PIPE)) = some i →
      (parsePost p line toks).pipe_to =
        ((termStage p (implicitTerminator line) toks).remaining.drop
          (i + 1)).map (fun t => expanduser p.home (strip_quotes t)) ∧
      ((parsePost p line toks).output, (parsePost p line toks).output_to) =
        (redirectStage p
          ((termStage p (implicitTerminator line) toks).remaining.take
            i)).1) := by
  constructor
  · rfl
  · intro p line toks i h
    simp only [parsePost, mkStatement, pipeStage, h]
    refine ⟨?_, ?_⟩ <;> first | rfl | trivial

/-- C3, witness: the general part at the concrete token list of
`cmd | wc > out.txt` under the default configuration. -/
theorem c3_witness :
    (parsePost defaultParser "cmd | wc > out.txt"
        ["cmd", "|", "wc", ">", "out.txt"]).pipe_to =
      (["wc", ">", "out.txt"].map
        (fun t => expanduser defaultParser.home (strip_quotes t))) ∧
    ((parsePost defaultParser "cmd | wc > out.txt"
        ["cmd", "|", "wc", ">", "out.txt"]).output,
      (parsePost defaultParser "cmd | wc > out.txt"
        ["cmd", "|", "wc", ">", "out.txt"]).output_to) =
      (redirectStage defaultParser ["cmd"]).1 :=
  c3_pipe_before_redirection.2 defaultParser "cmd | wc > out.txt"
    ["cmd", "|", "wc", ">", "out.txt"] 1 rfl

/-- C4: a registered multiline command on a line with no terminator commits
the whole line to command/args and parses no redirection or pipe clause. -/
theorem c4_multiline_no_redirection (p : StatementParser) (line : String)
    (tok0 : String) (rest : List String)
    (htok : tokenize p line = Except.ok (tok0 :: rest))
    (hscan : findTerminatorAux p.terminators (tok0 :: rest) 0 = none)
    (hlf : implicitTerminator line = "")
    (hml : p.multiline_commands.contains tok0 = true) :
    parse p line =
      Except.ok (mkStatement (" ".intercalate rest) line tok0 rest tok0 ""
        "" [] "" "") := by
  have hne : tok0 ≠ "" := tokenize_tokens_ne p line _ htok tok0 (by simp)
  rw [parse, htok]
  simp only [Except.map]
  rw [parsePost_multiline p line tok0 rest hscan hlf hml hne]

/-- C4, witness: with `multiline_commands=["sql"]`,
`parse "sql select * > out.txt"` yields command `"sql"`,
args `"select * > out.txt"`, and empty output, output_to and pipe_to. -/
theorem c4_witness :
    parse sqlParser "sql select * > out.txt" =
      Except.ok (mkStatement "select * > out.txt" "sql select * > out.txt"
        "sql" ["select", "*", ">", "out.txt"] "sql" "" "" [] "" "") :=
  c4_multiline_no_redirection sqlParser "sql select * > out.txt" "sql"
    ["select", "*", ">", "out.txt"] rfl rfl rfl rfl

/-- C5: the full parser fails exactly when the (comment-stripped, expanded)
line has a quote character opened but never closed before end of input,
while `parse_command_only` is total — it returns a `Statement` for every
input — and on `say "unterminated` it treats the unmatched quote character
as ordinary text, whereas `parse` fails on the same input. -/
theorem c5_unclosed_quote_errors :
    (∀ (p : StatementParser) (line : String),
      parse p line = Except.error () ↔
        hasUnclosedQuote (expand p (stripComments line)) = true) ∧
    (∀ (p : StatementParser) (rawinput : String),
      (parse_command_only p rawinput).raw = rawinput) ∧
    parse_command_only defaultParser "say \"unterminated" =
      mkStatement "\"unterminated" "say \"unterminated" "say" [] "" "" "" []
        "" "" ∧
    parse defaultParser "say \"unterminated" = Except.error () := by
  refine ⟨parse_error_iff, ?_, rfl, rfl⟩
  intro p rawinput
  rfl

/-- C6: alias expansion terminates for every alias table and every line,
with at most one replacement per alias (so at most `|aliases|` steps); the
cyclic table `a -> b, b -> a` expands `a` twice and stops at `"a"`, a
self-referencing alias expands exactly once, and `_expand` under the cyclic
table terminates with a value. -/
theorem c6_alias_expansion_terminates :
    (∀ (terms : List String) (aliases : List (String × String))
      (line : String),
      (expandAliases terms aliases line).2 ≤ aliases.length) ∧
    expandAliases [";"] [("a", "b"), ("b", "a")] "a" = ("a", 2) ∧
    expandAliases [";"] [("a", "a x")] "a" = ("a x", 1) ∧
    expand cyclicParser "a" = "a" :=
  ⟨expandAliases_steps_le, rfl, rfl, rfl⟩

/-- C7, counterexample: the claim says a word is valid exactly when it is
non-empty and the first match group consumes it entirely; the code reports
the empty word as valid (the pattern matches the empty word with an empty
first group, which equals the word). -/
theorem c7_counterexample :
    is_valid_command defaultParser.terminators "" = (true, "") ∧
      ("" : String).length = 0 :=
  ⟨rfl, rfl⟩

/-- C7, amended: `is_valid_command` returns valid exactly when the first
match group consumes the entire word — equivalently, when no position of
the word starts a whitespace character, a quote character, a redirection
character or a configured terminator (so the empty word is reported valid);
on `">"` it returns invalid together with the non-empty message naming the
forbidden character classes, the redirection characters included. -/
theorem c7_amended :
    (∀ (terms : List String) (word : String),
      (is_valid_command terms word).1 = true ↔
        (∀ n, n < word.data.length →
          matchSeparator terms (word.data.drop n) = none)) ∧
    is_valid_command defaultParser.terminators ">" =
      (false, "whitespace, quotes, '|', '>', ';'") :=
  ⟨is_valid_command_iff, rfl⟩

/-- C8, counterexample: the claim says the stripper deletes exactly the
block-comment spans outside quotes, which on `a /* b */ c /* d */` would
leave `a  c `; the greedy comment match runs from the first opener to the
last closer, also deleting the ` c ` between the two comments. -/
theorem c8_counterexample :
    stripComments "a /* b */ c /* d */" = "a " ∧
      ("a " : String) ≠ "a  c " :=
  ⟨rfl, by decide⟩

/-- C8, amended: a comment match is greedy — it runs from a comment opener
to the last comment closer of the remaining input, deleting intervening
text and quote spans with it; quoted spans before any comment span are
copied through unchanged (the spec's example strips only the trailing
comment), and an input with no comment closer — in particular one whose
comment delimiter is unterminated — passes through unchanged. -/
theorem c8_amended :
    stripComments "say \"hi /* not a comment */\" /* real comment */" =
      "say \"hi /* not a comment */\" " ∧
    stripComments "a /* b */ c /* d */" = "a " ∧
    (∀ (s : String), hasStarSlash s.data = false → stripComments s = s) :=
  ⟨rfl, rfl, stripComments_id⟩

/-- C9, counterexample: the claim states an equivalence, but
`parse "cmd"` returns a nonempty command with empty args, arg_list and
multiline_command, refuting the right-to-left direction. -/
theorem c9_counterexample :
    (parse defaultParser "cmd").map
        (fun s => (s.command, s.args, s.arg_list, s.multiline_command)) =
      Except.ok ("cmd", "", ([] : List String), "") ∧
      ("cmd" : String) ≠ "" :=
  ⟨rfl, by decide⟩

/-- C9, amended: only the left-to-right direction holds — for every
`Statement` returned by `parse`, an empty command forces empty args,
arg_list and multiline_command (the converse fails, as a one-word line
shows). -/
theorem c9_amended (p : StatementParser) (line : String) (stmt : Statement)
    (h : parse p line = Except.ok stmt) (hc : stmt.command = "") :
    stmt.args = "" ∧ stmt.arg_list = [] ∧ stmt.multiline_command = "" := by
  rw [parse] at h
  cases htok : tokenize p line with
  | error u => rw [htok] at h; simp [Except.map] at h
  | ok toks =>
    rw [htok] at h
    simp only [Except.map, Except.ok.injEq] at h
    subst h
    exact parsePost_command_empty p line toks
      (tokenize_tokens_ne p line toks htok) hc

/-- C9, witness: the amended claim at `parse ";"`, whose statement has an
empty command. -/
theorem c9_witness :
    (parsePost defaultParser ";" [";"]).args = "" ∧
      (parsePost defaultParser ";" [";"]).arg_list = [] ∧
      (parsePost defaultParser ";" [";"]).multiline_command = "" :=
  c9_amended defaultParser ";" (parsePost defaultParser ";" [";"]) rfl rfl

/-- C10: every `Statement` built by `parse` or `parse_command_only` carries
as its underlying string value exactly its `args` field — converting the
statement to a plain string yields the argument text, not the raw line. -/
theorem c10_statement_str_is_args :
    (∀ (p : StatementParser) (line : String) (stmt : Statement),
      parse p line = Except.ok stmt → stmt.strVal = stmt.args) ∧
    (∀ (p : StatementParser) (rawinput : String),
      (parse_command_only p rawinput).strVal =
        (parse_command_only p rawinput).args) := by
  constructor
  · intro p line stmt h
    rw [parse] at h
    cases htok : tokenize p line with
    | error u => rw [htok] at h; simp [Except.map] at h
    | ok toks =>
      rw [htok] at h
      simp only [Except.map, Except.ok.injEq] at h
      subst h
      rfl
  · intro p rawinput
    rfl

end Cmd2
